import Mathlib

/-!
Verification of the canvas slide rendering core (CanvasSlideRenderer.tsx /
SlideSelector.tsx): pattern matcher, keyword highlighter, color resolver,
greedy line wrapper and the rasterizer's draw-command stream, embedded as
executable Lean definitions over `List Char` strings with rational
coordinates.  JS `string` is modelled as `List Char`, JS numbers as `ℚ`
(exact arithmetic idealization of IEEE doubles), optional props as
`Option`, and JS truthiness of strings as non-emptiness.
-/

/-- JS strings are modelled as lists of characters. -/
abbrev Str := List Char

/-- Conversion of a Lean string literal to the model type. -/
def str (s : String) : Str := s.data

/-- Model of `String.prototype.toLowerCase` restricted to the ASCII case
mapping (sufficient for the repository's keyword and verse inputs). -/
def lower (s : Str) : Str := s.map Char.toLower

/-- The whitespace class trimmed by JS `String.prototype.trim` (ASCII
whitespace plus NBSP, ideographic space and BOM). -/
def jsWhitespace (c : Char) : Bool :=
  c = ' ' || c = '\t' || c = '\n' || c = '\r' ||
  c.toNat = 11 || c.toNat = 12 || c.toNat = 0xA0 || c.toNat = 0x3000 || c.toNat = 0xFEFF

/-- Model of `String.prototype.trim`. -/
def trim (s : Str) : Str :=
  ((s.dropWhile jsWhitespace).reverse.dropWhile jsWhitespace).reverse

/-- Model of JS `hay.includes(needle)`, as `hasSubstr hay needle`. -/
def hasSubstr : Str → Str → Bool
  | s, needle =>
    match s with
    | [] => needle.isEmpty
    | _ :: t => needle.isPrefixOf s || hasSubstr t needle

/-- Model of JS `s.split(sep)` for a one-character separator (keeps empty
pieces, `"".split(sep) = [""]`). -/
def splitOnChar (sep : Char) : Str → List Str
  | [] => [[]]
  | c :: rest =>
    if c = sep then [] :: splitOnChar sep rest
    else
      match splitOnChar sep rest with
      | [] => [[c]]
      | w :: ws => (c :: w) :: ws

/-- Re-append the separating space to every word but the last, exactly as
`words[i] + (i < words.length - 1 ? ' ' : '')` does in the renderer. -/
def addSpaces : List Str → List Str
  | [] => []
  | [w] => [w]
  | w :: ws => (w ++ [' ']) :: addSpaces ws

/-- The word list the renderer's wrapping loops iterate over:
`text.split(' ')` with the trailing space re-attached to all but the last. -/
def wordsOf (s : Str) : List Str := addSpaces (splitOnChar ' ' s)

/-! ### Pattern matcher (`detectBibleVerse`)

The six anchored regular expressions are sequences of character classes
with `+` / `*` / single-character quantifiers; `matchSeq` decides whether
some prefix of the input matches such a sequence (exactly the semantics of
`pattern.test` for these `^`-anchored patterns). -/

/-- Quantifier of one regex atom: exactly one, one-or-more, zero-or-more. -/
inductive Quant where
  | one
  | plus
  | star
deriving DecidableEq

/-- Whether consuming `k` characters is allowed for a quantifier. -/
def okCount : Quant → Nat → Bool
  | .one, k => k = 1
  | .plus, k => 1 ≤ k
  | .star, _ => true

/-- A pattern is a sequence of (character class, quantifier) atoms.
`matchSeq` holds iff some prefix of `s` can be decomposed along the atoms
(full backtracking via the existential over the split point). -/
def matchSeq : List ((Char → Bool) × Quant) → Str → Bool
  | [], _ => true
  | (p, q) :: rest, s =>
    (List.range (s.length + 1)).any fun k =>
      okCount q k && (s.take k).all p && matchSeq rest (s.drop k)

/-- JS `\d`. -/
def isDigitClass (c : Char) : Bool := c.isDigit

/-- The `[가-힣]` class: precomposed Hangul syllables U+AC00–U+D7A3. -/
def isHangul (c : Char) : Bool := 0xAC00 ≤ c.toNat && c.toNat ≤ 0xD7A3

/-- The `[A-Za-z]` class. -/
def isLatinLetter (c : Char) : Bool :=
  ('A' ≤ c && c ≤ 'Z') || ('a' ≤ c && c ≤ 'z')

/-- JS `\s` (same class as `trim`'s whitespace here). -/
def isSpaceClass (c : Char) : Bool := jsWhitespace c

/-- The `[장절]` class. -/
def isJangJeol (c : Char) : Bool := c = '장' || c = '절'

/-- The six verse patterns of `detectBibleVerse`, in source order:
`/^\d+\s*[장절]\s*/`, `/^[가-힣]+\s*\d+장\s*\d+절/`, `/^[가-힣]+\s*\d+:\d+/`,
`/^[A-Za-z]+\s*\d+:\d+/`, `/^[가-힣]+\s*[가-힣]+\s*\d+장/`,
`/^[가-힣]+\s*\d+:\d+-\d+/`. -/
def biblePatterns : List (List ((Char → Bool) × Quant)) :=
  [ [(isDigitClass, .plus), (isSpaceClass, .star), (isJangJeol, .one), (isSpaceClass, .star)],
    [(isHangul, .plus), (isSpaceClass, .star), (isDigitClass, .plus), (fun c => c = '장', .one),
     (isSpaceClass, .star), (isDigitClass, .plus), (fun c => c = '절', .one)],
    [(isHangul, .plus), (isSpaceClass, .star), (isDigitClass, .plus), (fun c => c = ':', .one),
     (isDigitClass, .plus)],
    [(isLatinLetter, .plus), (isSpaceClass, .star), (isDigitClass, .plus), (fun c => c = ':', .one),
     (isDigitClass, .plus)],
    [(isHangul, .plus), (isSpaceClass, .star), (isHangul, .plus), (isSpaceClass, .star),
     (isDigitClass, .plus), (fun c => c = '장', .one)],
    [(isHangul, .plus), (isSpaceClass, .star), (isDigitClass, .plus), (fun c => c = ':', .one),
     (isDigitClass, .plus), (fun c => c = '-', .one), (isDigitClass, .plus)] ]

/-- The function `detectBibleVerse` (identical in CanvasSlideRenderer.tsx and
SlideSelector.tsx): trims the input and tests it against the fixed pattern
set, true on the first match. -/
def detectBibleVerse (text : Str) : Bool :=
  biblePatterns.any fun pat => matchSeq pat (trim text)

/-- C9: `isVerseLike` (`detectBibleVerse`) accepts the three reference-style
inputs `"창세기 1:1"`, `"John 3:16"`, `"1장 1절"` and rejects
`"Hello world"` and the empty string. -/
theorem c9_verse_patterns :
    detectBibleVerse (str "창세기 1:1") = true ∧
    detectBibleVerse (str "John 3:16") = true ∧
    detectBibleVerse (str "1장 1절") = true ∧
    detectBibleVerse (str "Hello world") = false ∧
    detectBibleVerse (str "") = false := by
  decide

/-! ### Color resolver

`getTextBlockColor` of CanvasSlideRenderer.tsx resolves one block's draw
color from the component props (individual override list, verse detection
flag/color, base text color) and the slide being rendered; it is shared by
the preview canvas (200x150), the fullscreen canvas (800x600) and the
edit-preview canvas.  SlideSelector.tsx carries its own re-derivation
`selGetTextBlockColor`, used by the high-resolution export loop
`convertSelectedSlides`, which reads the slide index from the color-picker
modal state instead of the slide being exported. -/

/-- One entry of the `textBlockColors` override list. -/
structure TextBlockColor where
  slideIndex : Nat
  blockIndex : Nat
  color : Str
deriving DecidableEq, Repr

/-- Model of `textBlockColors.find(p => p.slideIndex === si && p.blockIndex === bi)`
guarded by the truthiness check on the optional prop. -/
def findCustomColor (textBlockColors : Option (List TextBlockColor))
    (slideIndex blockIndex : Nat) : Option TextBlockColor :=
  match textBlockColors with
  | none => none
  | some l => l.find? fun p => p.slideIndex == slideIndex && p.blockIndex == blockIndex

/-- The function `getTextBlockColor` of CanvasSlideRenderer.tsx: (1) an exact
`(slide_index, blockIndex)` entry of `textBlockColors` wins; (2) otherwise,
if `bibleVerseEnabled`, `bibleVerseColor` is truthy (present and non-empty)
and the block text is verse-like, the verse color; (3) otherwise the base
`textColor`. -/
def getTextBlockColor (textBlockColors : Option (List TextBlockColor))
    (bibleVerseEnabled : Bool) (bibleVerseColor : Option Str) (textColor : Str)
    (slide_index : Nat) (text : Str) (blockIndex : Nat) : Str :=
  match findCustomColor textBlockColors slide_index blockIndex with
  | some entry => entry.color
  | none =>
    match bibleVerseColor with
    | some vc =>
      if bibleVerseEnabled && !vc.isEmpty && detectBibleVerse text then vc else textColor
    | none => textColor

/-- The re-derived `getTextBlockColor` of SlideSelector.tsx (the version consulted by the
high-resolution export loop `convertSelectedSlides`): the slide index is
read from `colorPickerModal?.slideIndex`; when the modal is closed the base
`textColor` is returned unconditionally. -/
def selGetTextBlockColor (colorPickerModalSlideIndex : Option Nat)
    (textBlockColors : List TextBlockColor) (bibleVerseEnabled : Bool)
    (bibleVerseColor textColor : Str) (text : Str) (blockIndex : Nat) : Str :=
  match colorPickerModalSlideIndex with
  | none => textColor
  | some slideIndex =>
    match textBlockColors.find?
        (fun p => p.slideIndex == slideIndex && p.blockIndex == blockIndex) with
    | some entry => entry.color
    | none =>
      if bibleVerseEnabled && detectBibleVerse text then bibleVerseColor else textColor

/-- The per-word color decision of the fallback branch of
`convertSelectedSlides` (SlideSelector.tsx): `highlightKeywords` there is
the raw comma-separated keyword string, and `for (const keyword of
highlightKeywords)` iterates over its characters; a word is drawn in the
fixed highlight color `#ff0000` as soon as one character-keyword contains
the word or is contained in it, case-insensitively. -/
def convertFallbackWordColor (highlightKeywords : Str) (textColor : Str) (word : Str) : Str :=
  if highlightKeywords.length > 0 then
    match highlightKeywords.find? (fun k =>
        hasSubstr (lower [k]) (lower word) || hasSubstr (lower word) (lower [k])) with
    | some _ => str "#ff0000"
    | none => textColor
  else textColor

/-- C1 (code bug): the color resolver is not consulted identically by all
call sites.  For the verse-like block `"창세기 1:1"` on slide 0, block 0,
with verse detection enabled (`#8B0000`), base color `#000000`, no
override entries, and the color-picker modal closed, the preview /
fullscreen renderer (CanvasSlideRenderer's `getTextBlockColor`) resolves
the verse color while the high-resolution export path (SlideSelector's
`selGetTextBlockColor` inside `convertSelectedSlides`) resolves the base
text color. -/
theorem c1_color_resolution_divergence :
    getTextBlockColor (some []) true (some (str "#8B0000")) (str "#000000")
      0 (str "창세기 1:1") 0 = str "#8B0000" ∧
    selGetTextBlockColor none [] true (str "#8B0000") (str "#000000")
      (str "창세기 1:1") 0 = str "#000000" ∧
    str "#8B0000" ≠ str "#000000" := by
  decide

/-- C5: the priority procedure of `getTextBlockColor`.  With a configured
(non-empty) verse color: an exact `(slideIndex, blockIndex)` override entry
always wins; otherwise verse detection (when enabled and matching) yields
the verse color; otherwise the base text color is returned. -/
theorem c5_color_priority (textBlockColors : Option (List TextBlockColor))
    (bibleVerseEnabled : Bool) (verseColor textColor : Str)
    (slideIndex blockIndex : Nat) (text : Str) (hvc : verseColor ≠ []) :
    (∀ entry, findCustomColor textBlockColors slideIndex blockIndex = some entry →
      getTextBlockColor textBlockColors bibleVerseEnabled (some verseColor) textColor
        slideIndex text blockIndex = entry.color) ∧
    (findCustomColor textBlockColors slideIndex blockIndex = none →
      bibleVerseEnabled = true → detectBibleVerse text = true →
      getTextBlockColor textBlockColors bibleVerseEnabled (some verseColor) textColor
        slideIndex text blockIndex = verseColor) ∧
    (findCustomColor textBlockColors slideIndex blockIndex = none →
      (bibleVerseEnabled = false ∨ detectBibleVerse text = false) →
      getTextBlockColor textBlockColors bibleVerseEnabled (some verseColor) textColor
        slideIndex text blockIndex = textColor) := by
  refine ⟨?_, ?_, ?_⟩
  · intro entry h
    simp [getTextBlockColor, h]
  · intro h hb hd
    have hvc' : verseColor.isEmpty = false := by
      cases verseColor with
      | nil => exact absurd rfl hvc
      | cons c t => rfl
    simp [getTextBlockColor, h, hb, hd, hvc']
  · intro h hbd
    rcases hbd with hb | hd
    · simp [getTextBlockColor, h, hb]
    · simp [getTextBlockColor, h, hd]

/-- Concrete instantiation of `c5_color_priority`: the override `#00FF00`
on slide 0 / block 0 beats verse detection, and without an override the
verse-like block resolves to the verse color `#8B0000`. -/
theorem c5_color_priority_witness :
    getTextBlockColor (some [⟨0, 0, str "#00FF00"⟩]) true (some (str "#8B0000"))
      (str "#000000") 0 (str "창세기 1:1") 0 = str "#00FF00" ∧
    getTextBlockColor (some []) true (some (str "#8B0000"))
      (str "#000000") 0 (str "창세기 1:1") 0 = str "#8B0000" := by
  constructor
  · exact (c5_color_priority (some [⟨0, 0, str "#00FF00"⟩]) true (str "#8B0000")
      (str "#000000") 0 0 (str "창세기 1:1") (by decide)).1 ⟨0, 0, str "#00FF00"⟩ (by decide)
  · exact (c5_color_priority (some []) true (str "#8B0000")
      (str "#000000") 0 0 (str "창세기 1:1") (by decide)).2.1 (by decide) rfl (by decide)

/-! ### Keyword highlighter (`processTextWithKeywords`)

The source wraps every case-insensitive occurrence of each non-blank
keyword in the sentinel pair `##HIGHLIGHT_<i>##`, then splits the rewritten
string on the sentinel pattern and rebuilds segments; a sentinel occurrence
sets the current highlight index, a non-empty text part emits a segment and
resets it.  The rewriting loop and the splitter are given fuel-free
semantics through a structural fuel argument (fuel bounded by the string
length, proved irrelevant below), so that all evaluations kernel-reduce. -/

/-- The decimal digit characters, for `` `##HIGHLIGHT_${index}##` ``. -/
def digitChar : Nat → Char
  | 0 => '0'
  | 1 => '1'
  | 2 => '2'
  | 3 => '3'
  | 4 => '4'
  | 5 => '5'
  | 6 => '6'
  | 7 => '7'
  | 8 => '8'
  | 9 => '9'
  | _ => '?'

/-- Decimal digits of a natural number (JS number-to-string inside the
template literal), with structural fuel. -/
def natDigitsAux : Nat → Nat → Str
  | 0, _ => []
  | fuel + 1, n =>
    if n < 10 then [digitChar n]
    else natDigitsAux fuel (n / 10) ++ [digitChar (n % 10)]

/-- Decimal representation of a natural number. -/
def natDigits (n : Nat) : Str := natDigitsAux (n + 1) n

/-- Model of `parseInt` on a digit string. -/
def natOfDigits (ds : Str) : Nat :=
  ds.foldl (fun n c => n * 10 + (c.toNat - 48)) 0

/-- The sentinel marker `` `##HIGHLIGHT_${index}##` ``. -/
def marker (i : Nat) : Str := str "##HIGHLIGHT_" ++ natDigits i ++ str "##"

/-- The fixed highlight palette `highlightColors` of CanvasSlideRenderer. -/
def highlightColors : List Str :=
  [str "#ff0000", str "#0080ff", str "#ffa500", str "#800080", str "#008000",
   str "#ff69b4", str "#8b4513", str "#4b0082", str "#ff1493", str "#00ced1"]

/-- One segment produced by the highlighter:
`{ text, color, isHighlight }`. -/
structure Seg where
  text : Str
  color : Str
  isHighlight : Bool
deriving DecidableEq, Repr

/-- The palette entry `highlightColors[i % highlightColors.length]` when a highlight index is
current, the base color otherwise. -/
def segColor (textColor : Str) : Option Nat → Str
  | some i => highlightColors.getD (i % 10) []
  | none => textColor

/-- One global, case-insensitive, replace pass for the keyword `k :: ks`:
every occurrence (leftmost, non-overlapping, matched on the original
string) is replaced by `marker i ++ keyword ++ marker i` — note that the
replacement contains the keyword's own literal spelling, not the matched
text.  `fuel ≥ s.length` suffices. -/
def wrapGoF (i : Nat) (k : Char) (ks : Str) : Nat → Str → Str
  | _, [] => []
  | 0, s => s
  | fuel + 1, c :: rest =>
    if lower ((c :: rest).take (k :: ks).length) = lower (k :: ks) then
      marker i ++ (k :: ks) ++ marker i ++
        wrapGoF i k ks fuel ((c :: rest).drop (k :: ks).length)
    else c :: wrapGoF i k ks fuel rest

/-- The replace pass at fuel `s.length`. -/
def wrapKw (i : Nat) (kw : Str) (s : Str) : Str :=
  match kw with
  | [] => s
  | k :: ks => wrapGoF i k ks s.length s

/-- One iteration of the keyword loop: blank keywords
(`if (keyword.trim())`) are skipped. -/
def applyKeyword (i : Nat) (kw : Str) (s : Str) : Str :=
  if trim kw = [] then s else wrapKw i kw s

/-- Recognize the sentinel pattern `##HIGHLIGHT_(\d+)##` at the head of the
string: the 12-character header, then a maximal non-empty digit run, then
`##`; returns the parsed index and the remainder. -/
def parseMarkerAt (s : Str) : Option (Nat × Str) :=
  if s.take 12 = str "##HIGHLIGHT_" then
    let ds := (s.drop 12).takeWhile Char.isDigit
    let rest := (s.drop 12).dropWhile Char.isDigit
    if ds ≠ [] ∧ rest.take 2 = ['#', '#'] then some (natOfDigits ds, rest.drop 2)
    else none
  else none

/-- Leftmost occurrence of the sentinel pattern: the text before it, its
parsed index, and the remainder after it (the iteration order of
`String.prototype.split` with a captured separator). -/
def splitFirstMarker : Str → Option (Str × Nat × Str)
  | [] => none
  | c :: rest =>
    match parseMarkerAt (c :: rest) with
    | some (j, post) => some ([], j, post)
    | none =>
      match splitFirstMarker rest with
      | none => none
      | some (pre, j, post) => some (c :: pre, j, post)

/-- The split-and-rebuild loop of `processTextWithKeywords`: a sentinel
part sets the current highlight index, a non-empty text part emits a
segment with the current index and resets it, empty parts are skipped.
`fuel > s.length` suffices. -/
def segmentizeF (textColor : Str) : Nat → Str → Option Nat → List Seg
  | 0, _, _ => []
  | fuel + 1, s, cur =>
    match splitFirstMarker s with
    | none => if s = [] then [] else [⟨s, segColor textColor cur, cur.isSome⟩]
    | some (pre, j, post) =>
      (if pre = [] then [] else [⟨pre, segColor textColor cur, cur.isSome⟩]) ++
        segmentizeF textColor fuel post (some j)

/-- The split-and-rebuild loop at fuel `s.length + 1`. -/
def segmentize (textColor : Str) (s : Str) (cur : Option Nat) : List Seg :=
  segmentizeF textColor (s.length + 1) s cur

/-- The function `processTextWithKeywords` of CanvasSlideRenderer.tsx: with no keywords
a single base segment; otherwise the sequential replace passes followed by
the sentinel split; if no segment survives, a single base segment of the
original text. -/
def processTextWithKeywords (highlightKeywords : List Str) (textColor : Str)
    (text : Str) : List Seg :=
  if highlightKeywords = [] then [⟨text, textColor, false⟩]
  else
    let result := highlightKeywords.enum.foldl
      (fun acc p => applyKeyword p.1 p.2 acc) text
    let segments := segmentize textColor result none
    if segments = [] then [⟨text, textColor, false⟩] else segments

/-- Concatenation of the text fields of a segment list. -/
def segConcat (l : List Seg) : Str := (l.map Seg.text).flatten

/-- C2 (code bug): because the opening and the closing sentinel are the
same string and every sentinel part sets the current highlight index, the
text following a keyword match is also emitted as highlighted.  For
`text = "I love you"`, `keywords = ["love"]`, the segment `" you"` — text
not matched by any keyword — carries `isHighlight = true` and the palette
color of the keyword. -/
theorem c2_highlight_after_match :
    processTextWithKeywords [str "love"] (str "#000000") (str "I love you") =
      [⟨str "I ", str "#000000", false⟩,
       ⟨str "love", str "#ff0000", true⟩,
       ⟨str " you", str "#ff0000", true⟩] := by
  decide

/-- C3 counterexample: on `text = "I love the church"`,
`keywords = ["love", "church"]`, the highlighter does not return the
segments claimed in the specification (`"I "` base, `"love "` highlighted,
`"the "` base, `"church"` highlighted). -/
theorem c3_spec_segments_refuted :
    processTextWithKeywords [str "love", str "church"] (str "#000000")
        (str "I love the church") ≠
      [⟨str "I ", str "#000000", false⟩,
       ⟨str "love ", str "#ff0000", true⟩,
       ⟨str "the ", str "#000000", false⟩,
       ⟨str "church", str "#0080ff", true⟩] := by
  decide

/-- C3 (actual behavior): for every base color, the match is wrapped
without the following space (`"love"`, not `"love "`), and the segment
`" the "` between the two matches is emitted with `palette[0]` and
`isHighlight = true` because the closing sentinel of the first match
re-arms the highlight index; only the unmatched leading segment `"I "`
carries the base color. -/
theorem c3_actual_segments (textColor : Str) :
    processTextWithKeywords [str "love", str "church"] textColor
        (str "I love the church") =
      [⟨str "I ", textColor, false⟩,
       ⟨str "love", str "#ff0000", true⟩,
       ⟨str " the ", str "#ff0000", true⟩,
       ⟨str "church", str "#0080ff", true⟩] := by
  rfl

/-- C4 (code bug): preview and export fallback disagree.  With the UI
keyword input `"church"` the preview fallback
(`processTextWithKeywords` on the split keyword list `["church"]`) leaves
the line `"chu"` entirely unhighlighted in the base color, while the
export fallback of `convertSelectedSlides` paints the word `"chu"` in the
fixed highlight color `#ff0000` (it iterates the raw keyword string
character-by-character and tests substring containment in both
directions). -/
theorem c4_preview_export_divergence :
    processTextWithKeywords [str "church"] (str "#000000") (str "chu") =
      [⟨str "chu", str "#000000", false⟩] ∧
    convertFallbackWordColor (str "church") (str "#000000") (str "chu") = str "#ff0000" ∧
    str "#ff0000" ≠ str "#000000" := by
  decide

/-- C8 counterexample: the concatenation of the segment texts is not the
input text — a case-variant match is respelled to the keyword's literal
spelling (`"LOVE"` becomes `"love"`). -/
theorem c8_concat_refuted :
    segConcat (processTextWithKeywords [str "love"] (str "#000000") (str "LOVE")) ≠
      str "LOVE" := by
  decide

/-! ### Greedy line wrapper (block pass of `renderToCanvas`)

The word loop of the per-block pass: `testLine = currentLine + word`; if
its measured width exceeds `maxWidth` and the current line is non-empty,
the current line is drawn at the current `y` and the word starts a new
line (stopping once `y + lineHeight` passes `height - lineHeight`);
otherwise the word is appended.  After the loop a non-empty current line
is drawn if there is still room.  `measure` abstracts
`ctx.measureText(·).width`. -/

/-- The per-block word-wrapping loop; returns the drawn `(line, y)` pairs
and the final `y` cursor. -/
def wrapBlockLoopY (measure : Str → ℚ) (maxWidth hLimit lineHeight : ℚ) :
    List Str → Str → ℚ → List (Str × ℚ) × ℚ
  | [], currentLine, y =>
    if currentLine ≠ [] ∧ y ≤ hLimit then ([(currentLine, y)], y + lineHeight)
    else ([], y)
  | w :: ws, currentLine, y =>
    if measure (currentLine ++ w) > maxWidth ∧ currentLine ≠ [] then
      if y + lineHeight > hLimit then ([(currentLine, y)], y + lineHeight)
      else
        ((currentLine, y) :: (wrapBlockLoopY measure maxWidth hLimit lineHeight ws w (y + lineHeight)).1,
         (wrapBlockLoopY measure maxWidth hLimit lineHeight ws w (y + lineHeight)).2)
    else wrapBlockLoopY measure maxWidth hLimit lineHeight ws (currentLine ++ w) y

/-- Any line drawn by the wrapping loop either measures within `maxWidth`,
or is one of the incoming words, or is the initial (non-empty) current
line. -/
theorem wrapBlockLoopY_mem (measure : Str → ℚ) (maxWidth hLimit lineHeight : ℚ) :
    ∀ (ws : List Str) (currentLine : Str) (y : ℚ) (p : Str × ℚ),
      p ∈ (wrapBlockLoopY measure maxWidth hLimit lineHeight ws currentLine y).1 →
      measure p.1 ≤ maxWidth ∨ p.1 ∈ ws ∨ (p.1 = currentLine ∧ currentLine ≠ []) := by
  intro ws
  induction ws with
  | nil =>
    intro currentLine y p hp
    by_cases h : currentLine ≠ [] ∧ y ≤ hLimit
    · simp only [wrapBlockLoopY, if_pos h, List.mem_singleton] at hp
      exact Or.inr (Or.inr ⟨by rw [hp], h.1⟩)
    · simp [wrapBlockLoopY, if_neg h] at hp
  | cons w ws ih =>
    intro currentLine y p hp
    by_cases hflush : measure (currentLine ++ w) > maxWidth ∧ currentLine ≠ []
    · by_cases hbreak : y + lineHeight > hLimit
      · simp only [wrapBlockLoopY, if_pos hflush, if_pos hbreak, List.mem_singleton] at hp
        exact Or.inr (Or.inr ⟨by rw [hp], hflush.2⟩)
      · simp only [wrapBlockLoopY, if_pos hflush, if_neg hbreak, List.mem_cons] at hp
        rcases hp with hp | hp
        · exact Or.inr (Or.inr ⟨by rw [hp], hflush.2⟩)
        · rcases ih w (y + lineHeight) p hp with h | h | h
          · exact Or.inl h
          · exact Or.inr (Or.inl (List.mem_cons_of_mem w h))
          · exact Or.inr (Or.inl (by rw [h.1]; exact List.mem_cons_self w ws))
    · simp only [wrapBlockLoopY, if_neg hflush] at hp
      rcases ih (currentLine ++ w) y p hp with h | h | h
      · exact Or.inl h
      · exact Or.inr (Or.inl (List.mem_cons_of_mem w h))
      · rcases not_and_or.mp hflush with hle | hcur
        · exact Or.inl (by rw [h.1]; exact le_of_not_lt hle)
        · have : currentLine = [] := by
            by_contra hne
            exact hcur hne
          exact Or.inr (Or.inl (by rw [h.1, this, List.nil_append]; exact List.mem_cons_self w ws))

/-- C6: every line produced by the greedy wrapper on a block's text (the
word loop started with the empty current line) has measured width at most
`maxWidth`, except possibly a line that is a single word of the input
(placed unsplit on its own line). -/
theorem c6_wrap_width (measure : Str → ℚ) (maxWidth hLimit lineHeight : ℚ)
    (text : Str) (y : ℚ) (p : Str × ℚ)
    (hp : p ∈ (wrapBlockLoopY measure maxWidth hLimit lineHeight (wordsOf text) [] y).1) :
    measure p.1 ≤ maxWidth ∨ p.1 ∈ wordsOf text := by
  rcases wrapBlockLoopY_mem measure maxWidth hLimit lineHeight (wordsOf text) [] y p hp with
    h | h | h
  · exact Or.inl h
  · exact Or.inr h
  · exact absurd h.1 (by simpa using h.2)

/-- Concrete instantiation of `c6_wrap_width`: wrapping `"ab cd"` at width
100 (with a one-unit-per-character measure) draws the single line
`"ab cd"`, whose measure 5 is within the bound. -/
theorem c6_wrap_width_witness :
    ((str "ab cd", (0 : ℚ)) ∈
      (wrapBlockLoopY (fun s => (s.length : ℚ)) 100 100 1 (wordsOf (str "ab cd")) [] 0).1) ∧
    ((fun s : Str => (s.length : ℚ)) (str "ab cd") ≤ 100 ∨ str "ab cd" ∈ wordsOf (str "ab cd")) := by
  refine ⟨by decide, ?_⟩
  exact c6_wrap_width (fun s => (s.length : ℚ)) 100 100 1 (str "ab cd") 0 (str "ab cd", 0)
    (by decide)

/-! ### Rasterizer (`renderToCanvas` of CanvasSlideRenderer.tsx)

The render call is modelled as the list of draw commands issued on the 2D
context: the background rectangle, then — gated first on
`slideData.full_text && slideData.full_text.trim()` and then on
`slideData.text_blocks.length > 0` — the per-block pass, the keyword
fallback pass over `full_text.split('\n')`, or the centered placeholder
label.  `measure` abstracts `ctx.measureText(·).width` (a fixed
measurement function per call). -/

/-- One `text_blocks` entry of the slide data returned by the parser. -/
structure SlideTextBlock where
  text : Str
  font_size : ℚ
  bold : Bool
  color : Option Str
deriving DecidableEq

/-- The slide data `{ slide_index, text_blocks, full_text }`. -/
structure SlideData where
  slide_index : Nat
  text_blocks : List SlideTextBlock
  full_text : Str
deriving DecidableEq

/-- Which of the three branches of `renderToCanvas` runs. -/
inductive RenderPath where
  | blockPass
  | fallbackPass
  | placeholder
deriving DecidableEq

/-- The branch selection of `renderToCanvas`: the outer gate is
`slideData.full_text && slideData.full_text.trim()` (truthy iff the
trimmed full text is non-empty), the inner gate is
`slideData.text_blocks && slideData.text_blocks.length > 0`. -/
def renderPath (sd : SlideData) : RenderPath :=
  if sd.full_text ≠ [] ∧ trim sd.full_text ≠ [] then
    if sd.text_blocks.length > 0 then .blockPass else .fallbackPass
  else .placeholder

/-- A drawing command issued on the canvas context. -/
inductive Cmd where
  | fillRect (color : Str) (w h : ℚ)
  | fillText (text : Str) (color : Str) (bold : Bool) (fontSize : ℚ) (x y : ℚ)
      (centered : Bool)
deriving DecidableEq

/-- Draw the accumulated runs of one wrapped fallback line left to right,
advancing the x cursor by the measured width of each run; highlighted runs
are drawn bold. -/
def drawRuns (measure : Str → ℚ) (fontSize y : ℚ) : List Seg → ℚ → List Cmd
  | [], _ => []
  | r :: rs, x =>
    Cmd.fillText r.text r.color r.isHighlight fontSize x y false ::
      drawRuns measure fontSize y rs (x + measure r.text)

/-- Append a word to the run list: extend the last run when its color and
highlight flag match the incoming segment, otherwise push a new run. -/
def pushRun (runs : List Seg) (w : Str) (color : Str) (hl : Bool) : List Seg :=
  match runs.getLast? with
  | some last =>
    if last.color = color ∧ last.isHighlight = hl then
      runs.dropLast ++ [⟨last.text ++ w, last.color, last.isHighlight⟩]
    else runs ++ [⟨w, color, hl⟩]
  | none => [⟨w, color, hl⟩]

/-- The mutable state threaded through the fallback pass: the y cursor,
the current line text, its runs, and the commands issued so far. -/
structure FBState where
  y : ℚ
  curText : Str
  runs : List Seg
  cmds : List Cmd
deriving DecidableEq

/-- The word loop of the fallback pass for one segment.  On overflow the
current line is drawn (unconditionally, at the current y) and, when the
new y passes the limit, the inner loop `break`s — leaving the stale
current line and runs in place, exactly as the source does. -/
def fbWords (measure : Str → ℚ) (maxWidth hLimit lineHeight fontSize padding : ℚ)
    (sgColor : Str) (sgHL : Bool) : List Str → FBState → FBState
  | [], st => st
  | w :: ws, st =>
    if measure (st.curText ++ w) > maxWidth ∧ st.curText ≠ [] then
      if st.y + lineHeight > hLimit then
        ⟨st.y + lineHeight, st.curText, st.runs,
         st.cmds ++ drawRuns measure fontSize st.y st.runs padding⟩
      else
        fbWords measure maxWidth hLimit lineHeight fontSize padding sgColor sgHL ws
          ⟨st.y + lineHeight, w, [⟨w, sgColor, sgHL⟩],
           st.cmds ++ drawRuns measure fontSize st.y st.runs padding⟩
    else
      fbWords measure maxWidth hLimit lineHeight fontSize padding sgColor sgHL ws
        ⟨st.y, st.curText ++ w, pushRun st.runs w sgColor sgHL, st.cmds⟩

/-- The segment loop of the fallback pass (the inner `break` only leaves
the word loop; following segments are still processed). -/
def fbSegs (measure : Str → ℚ) (maxWidth hLimit lineHeight fontSize padding : ℚ) :
    List Seg → FBState → FBState
  | [], st => st
  | sg :: sgs, st =>
    fbSegs measure maxWidth hLimit lineHeight fontSize padding sgs
      (fbWords measure maxWidth hLimit lineHeight fontSize padding sg.color sg.isHighlight
        (wordsOf sg.text) st)

/-- The line loop of the fallback pass: stop once y passes the limit, run
the keyword highlighter on the line, wrap its segments, then draw a
remaining non-empty line if there is still room. -/
def fbLines (measure : Str → ℚ) (maxWidth hLimit lineHeight fontSize padding : ℚ)
    (highlightKeywords : List Str) (textColor : Str) :
    List Str → ℚ → List Cmd → List Cmd
  | [], _, cmds => cmds
  | line :: rest, y, cmds =>
    if y > hLimit then cmds
    else
      let st := fbSegs measure maxWidth hLimit lineHeight fontSize padding
        (processTextWithKeywords highlightKeywords textColor line) ⟨y, [], [], cmds⟩
      if st.runs ≠ [] ∧ st.y ≤ hLimit then
        fbLines measure maxWidth hLimit lineHeight fontSize padding highlightKeywords
          textColor rest (st.y + lineHeight)
          (st.cmds ++ drawRuns measure fontSize st.y st.runs padding)
      else
        fbLines measure maxWidth hLimit lineHeight fontSize padding highlightKeywords
          textColor rest st.y st.cmds

/-- The per-block pass: stop at the drawable-height limit, resolve the
block color, wrap the block's own text with the empty current line, draw
each line at the left padding with the block's own font
(`block.font_size || fontSize`, bold flag), then advance the cursor by the
inter-block gap `0.3 × lineHeight`. -/
def blockGo (measure : Str → ℚ) (maxWidth hLimit lineHeight fontSize padding : ℚ)
    (textBlockColors : Option (List TextBlockColor)) (bibleVerseEnabled : Bool)
    (bibleVerseColor : Option Str) (textColor : Str) (slide_index : Nat) :
    List SlideTextBlock → Nat → ℚ → List Cmd
  | [], _, _ => []
  | b :: bs, blockIndex, y =>
    if y > hLimit then []
    else
      (((wrapBlockLoopY measure maxWidth hLimit lineHeight (wordsOf b.text) [] y).1).map
        fun p =>
          Cmd.fillText p.1
            (getTextBlockColor textBlockColors bibleVerseEnabled bibleVerseColor textColor
              slide_index b.text blockIndex)
            b.bold (if b.font_size = 0 then fontSize else b.font_size) padding p.2 false) ++
      blockGo measure maxWidth hLimit lineHeight fontSize padding textBlockColors
        bibleVerseEnabled bibleVerseColor textColor slide_index bs (blockIndex + 1)
        ((wrapBlockLoopY measure maxWidth hLimit lineHeight (wordsOf b.text) [] y).2 +
          lineHeight * (3 / 10))

/-- The function `renderToCanvas` as a draw-command stream: background, then the branch
chosen by `renderPath`, with the preview constants
`fontSize = max(12, min(width / 25, 20))`, `lineHeight = fontSize × 1.4`,
`padding = max(10, width × 0.05)`, `maxWidth = width − 2 × padding`. -/
def renderToCanvasCmds (backgroundColor textColor : Str)
    (highlightKeywords : List Str) (bibleVerseColor : Option Str)
    (bibleVerseEnabled : Bool) (textBlockColors : Option (List TextBlockColor))
    (width height : ℚ) (slideData : SlideData) (measure : Str → ℚ) : List Cmd :=
  let fontSize : ℚ := max 12 (min (width / 25) 20)
  let lineHeight : ℚ := fontSize * (7 / 5)
  let padding : ℚ := max 10 (width * (1 / 20))
  let maxWidth : ℚ := width - padding * 2
  let hLimit : ℚ := height - lineHeight
  Cmd.fillRect backgroundColor width height ::
  match renderPath slideData with
  | .blockPass =>
    blockGo measure maxWidth hLimit lineHeight fontSize padding textBlockColors
      bibleVerseEnabled bibleVerseColor textColor slideData.slide_index
      slideData.text_blocks 0 padding
  | .fallbackPass =>
    fbLines measure maxWidth hLimit lineHeight fontSize padding highlightKeywords
      textColor (splitOnChar '\n' slideData.full_text) padding []
  | .placeholder =>
    [Cmd.fillText (str "Slide " ++ natDigits (slideData.slide_index + 1)) textColor
      false (fontSize * (3 / 2)) (width / 2) (height / 2 - fontSize) true]

/-- The fallback branch only runs when the block list is empty. -/
theorem renderPath_fallback_blocks_nil (sd : SlideData)
    (h : renderPath sd = RenderPath.fallbackPass) : sd.text_blocks = [] := by
  unfold renderPath at h
  by_cases h1 : sd.full_text ≠ [] ∧ trim sd.full_text ≠ []
  · rw [if_pos h1] at h
    by_cases h2 : sd.text_blocks.length > 0
    · rw [if_pos h2] at h
      exact absurd h (by simp)
    · exact List.eq_nil_of_length_eq_zero (by omega)
  · rw [if_neg h1] at h
    exact absurd h (by simp)

/-- C7 counterexample: a slide with a non-empty block list but blank
`full_text` (one block whose text is empty — its newline-join flattening
is the empty string) is painted as the numbered placeholder, not via the
per-block pass, and with its block list non-empty — refuting both the
claimed non-empty-blocks branch condition and the claimed "placeholder
only when `textBlocks` is empty". -/
theorem c7_blockpass_gate_refuted :
    renderPath ⟨0, [⟨[], 16, false, none⟩], []⟩ = RenderPath.placeholder ∧
    (SlideData.mk 0 [⟨[], 16, false, none⟩] []).text_blocks ≠ [] ∧
    RenderPath.placeholder ≠ RenderPath.blockPass := by
  refine ⟨by decide, by decide, by decide⟩

/-- C7 (amended): the outer gate of `renderToCanvas` is the blankness of
`full_text`.  When the trimmed `full_text` is non-empty, the per-block
pass runs iff `text_blocks` is non-empty and the fallback pass iff it is
empty; the centered placeholder is painted exactly when the trimmed
`full_text` is empty, regardless of `text_blocks`. -/
theorem c7_render_path_selection (sd : SlideData) :
    (trim sd.full_text ≠ [] → sd.text_blocks ≠ [] → renderPath sd = RenderPath.blockPass) ∧
    (trim sd.full_text ≠ [] → sd.text_blocks = [] → renderPath sd = RenderPath.fallbackPass) ∧
    (renderPath sd = RenderPath.placeholder ↔ trim sd.full_text = []) := by
  have hfull : trim sd.full_text ≠ [] → sd.full_text ≠ [] := by
    intro h hc
    exact h (by rw [hc]; rfl)
  refine ⟨?_, ?_, ?_⟩
  · intro ht hb
    unfold renderPath
    rw [if_pos ⟨hfull ht, ht⟩, if_pos (List.length_pos.mpr hb)]
  · intro ht hb
    unfold renderPath
    rw [if_pos ⟨hfull ht, ht⟩, if_neg (by simp [hb])]
  · constructor
    · intro h
      by_contra ht
      unfold renderPath at h
      rw [if_pos ⟨hfull ht, ht⟩] at h
      by_cases h2 : sd.text_blocks.length > 0
      · rw [if_pos h2] at h
        exact absurd h (by simp)
      · rw [if_neg h2] at h
        exact absurd h (by simp)
    · intro ht
      unfold renderPath
      rw [if_neg (by simp [ht])]

/-- Concrete instantiation of `c7_render_path_selection`: a slide with one
non-empty block and matching `full_text` takes the per-block pass. -/
theorem c7_render_path_selection_witness :
    renderPath ⟨0, [⟨str "hi", 16, false, none⟩], str "hi"⟩ = RenderPath.blockPass := by
  exact (c7_render_path_selection ⟨0, [⟨str "hi", 16, false, none⟩], str "hi"⟩).1
    (by decide) (by decide)

/-- C10: when the block list is non-empty the draw-command stream of the
preview render does not depend on the highlight keyword list — keyword
highlighting only enters through the fallback pass, which requires an
empty block list. -/
theorem c10_blockpass_keyword_independence (backgroundColor textColor : Str)
    (k1 k2 : List Str) (bibleVerseColor : Option Str) (bibleVerseEnabled : Bool)
    (textBlockColors : Option (List TextBlockColor)) (width height : ℚ)
    (sd : SlideData) (measure : Str → ℚ) (hb : sd.text_blocks ≠ []) :
    renderToCanvasCmds backgroundColor textColor k1 bibleVerseColor bibleVerseEnabled
      textBlockColors width height sd measure =
    renderToCanvasCmds backgroundColor textColor k2 bibleVerseColor bibleVerseEnabled
      textBlockColors width height sd measure := by
  cases hrp : renderPath sd with
  | blockPass => simp only [renderToCanvasCmds, hrp]
  | fallbackPass => exact absurd (renderPath_fallback_blocks_nil sd hrp) hb
  | placeholder => simp only [renderToCanvasCmds, hrp]

/-- Concrete instantiation of `c10_blockpass_keyword_independence`: a
one-block slide renders identically with keyword lists `["love"]` and
`[]`. -/
theorem c10_blockpass_keyword_independence_witness :
    (SlideData.mk 0 [⟨str "hi", 16, false, none⟩] (str "hi")).text_blocks ≠ [] ∧
    renderToCanvasCmds (str "#ffffff") (str "#000000") [str "love"] (some (str "#8B0000"))
      true (some []) 200 150 ⟨0, [⟨str "hi", 16, false, none⟩], str "hi"⟩
      (fun s => (s.length : ℚ)) =
    renderToCanvasCmds (str "#ffffff") (str "#000000") [] (some (str "#8B0000"))
      true (some []) 200 150 ⟨0, [⟨str "hi", 16, false, none⟩], str "hi"⟩
      (fun s => (s.length : ℚ)) := by
  refine ⟨by decide, ?_⟩
  exact c10_blockpass_keyword_independence (str "#ffffff") (str "#000000") [str "love"] []
    (some (str "#8B0000")) true (some []) 200 150
    ⟨0, [⟨str "hi", 16, false, none⟩], str "hi"⟩ (fun s => (s.length : ℚ)) (by decide)

/-! ### C8: concatenation of the highlighter's segments

The highlighter rewrites the text (each match is respelled to the
keyword's literal case) before splitting, so concatenation of the segment
texts recovers the input only when no rewriting other than marker
insertion happens.  The amended statement is proved for a single keyword
under three hypotheses: the keyword and the text are free of the sentinel
character `'#'`, and every case-insensitive occurrence of the keyword in
the text is spelled exactly as the keyword. -/

/-- No `'#'` occurs in the string, so no sentinel pattern can arise from
it or overlap with it. -/
def noHash (s : Str) : Bool := s.all fun c => c != '#'

/-- Every case-insensitive occurrence of `kw` in `s` is spelled exactly
`kw`. -/
def ExactCase (kw s : Str) : Prop :=
  ∀ n, lower ((s.drop n).take kw.length) = lower kw → (s.drop n).take kw.length = kw

/-- Executable bounded check equivalent to `ExactCase`. -/
def exactCaseOK (kw s : Str) : Bool :=
  (List.range (s.length + 1)).all fun n =>
    !(lower ((s.drop n).take kw.length) == lower kw) ||
      ((s.drop n).take kw.length == kw)

theorem exactCaseOK_spec (kw s : Str) (h : exactCaseOK kw s = true) : ExactCase kw s := by
  intro n hn
  by_cases hle : n ≤ s.length
  · have h' := List.all_eq_true.mp h n (List.mem_range.mpr (by omega))
    rw [Bool.or_eq_true, Bool.not_eq_true', beq_eq_false_iff_ne, beq_iff_eq] at h'
    rcases h' with hne | heq
    · exact absurd hn hne
    · exact heq
  · have hdrop : s.drop n = [] := List.drop_eq_nil_of_le (by omega)
    rw [hdrop] at hn ⊢
    simp only [List.take_nil] at hn ⊢
    have hkw : kw = [] := List.map_eq_nil_iff.mp (hn.symm)
    rw [hkw]

theorem exactCase_drop {kw s : Str} (h : ExactCase kw s) (m : Nat) :
    ExactCase kw (s.drop m) := by
  intro n hn
  rw [List.drop_drop] at hn ⊢
  exact h (m + n) hn

theorem noHash_drop {s : Str} (h : noHash s = true) (m : Nat) : noHash (s.drop m) = true := by
  rw [noHash, List.all_eq_true] at h ⊢
  exact fun c hc => h c (List.mem_of_mem_drop hc)

theorem noHash_head {c : Char} {t : Str} (h : noHash (c :: t) = true) : c ≠ '#' := by
  rw [noHash, List.all_eq_true] at h
  simpa using h c (List.mem_cons_self c t)

theorem noHash_tail {c : Char} {t : Str} (h : noHash (c :: t) = true) : noHash t = true := by
  rw [noHash, List.all_eq_true] at h ⊢
  exact fun x hx => h x (List.mem_cons_of_mem c hx)

theorem natDigitsAux_spec : ∀ fuel n, n < fuel →
    natDigitsAux fuel n ≠ [] ∧ ∀ c ∈ natDigitsAux fuel n, c.isDigit = true := by
  intro fuel
  induction fuel with
  | zero => intro n h; omega
  | succ fuel ih =>
    intro n h
    by_cases h10 : n < 10
    · simp only [natDigitsAux, if_pos h10]
      refine ⟨by simp, ?_⟩
      intro c hc
      rw [List.mem_singleton] at hc
      subst hc
      interval_cases n <;> decide
    · have hlt : n / 10 < n := Nat.div_lt_self (by omega) (by norm_num)
      have hdiv : n / 10 < fuel := by omega
      simp only [natDigitsAux, if_neg h10]
      refine ⟨by simp, ?_⟩
      intro c hc
      rw [List.mem_append] at hc
      rcases hc with hc | hc
      · exact (ih (n / 10) hdiv).2 c hc
      · rw [List.mem_singleton] at hc
        subst hc
        have hm : n % 10 < 10 := Nat.mod_lt n (by omega)
        set m := n % 10 with hmdef
        interval_cases m <;> decide

theorem natDigits_ne_nil (n : Nat) : natDigits n ≠ [] :=
  (natDigitsAux_spec (n + 1) n (by omega)).1

theorem natDigits_digits (n : Nat) : ∀ c ∈ natDigits n, c.isDigit = true :=
  (natDigitsAux_spec (n + 1) n (by omega)).2

theorem takeWhile_digits_append (l m : Str) (hl : ∀ c ∈ l, c.isDigit = true) :
    (l ++ '#' :: m).takeWhile Char.isDigit = l := by
  induction l with
  | nil => simp [List.takeWhile_cons]
  | cons c t ih =>
    have hc : c.isDigit = true := hl c (List.mem_cons_self c t)
    simp [List.takeWhile_cons, hc, ih fun x hx => hl x (List.mem_cons_of_mem c hx)]

theorem dropWhile_digits_append (l m : Str) (hl : ∀ c ∈ l, c.isDigit = true) :
    (l ++ '#' :: m).dropWhile Char.isDigit = '#' :: m := by
  induction l with
  | nil => simp [List.dropWhile_cons]
  | cons c t ih =>
    have hc : c.isDigit = true := hl c (List.mem_cons_self c t)
    simp [List.dropWhile_cons, hc, ih fun x hx => hl x (List.mem_cons_of_mem c hx)]

theorem parseMarkerAt_marker (i : Nat) (tail : Str) :
    parseMarkerAt (marker i ++ tail) = some (natOfDigits (natDigits i), tail) := by
  have hform : marker i ++ tail = str "##HIGHLIGHT_" ++ (natDigits i ++ '#' :: '#' :: tail) := by
    simp [marker, str, List.append_assoc]
  have h12 : (12 : Nat) = (str "##HIGHLIGHT_").length := by decide
  have htake : (str "##HIGHLIGHT_" ++ (natDigits i ++ '#' :: '#' :: tail)).take 12 =
      str "##HIGHLIGHT_" := by rw [h12, List.take_left]
  have hdrop : (str "##HIGHLIGHT_" ++ (natDigits i ++ '#' :: '#' :: tail)).drop 12 =
      natDigits i ++ '#' :: '#' :: tail := by rw [h12, List.drop_left]
  rw [hform]
  unfold parseMarkerAt
  rw [if_pos htake, hdrop,
      takeWhile_digits_append (natDigits i) ('#' :: tail) (natDigits_digits i),
      dropWhile_digits_append (natDigits i) ('#' :: tail) (natDigits_digits i),
      if_pos ⟨natDigits_ne_nil i, by simp⟩]
  simp

theorem parseMarkerAt_lt (s : Str) (j : Nat) (post : Str)
    (h : parseMarkerAt s = some (j, post)) : post.length < s.length := by
  unfold parseMarkerAt at h
  by_cases h1 : s.take 12 = str "##HIGHLIGHT_"
  · rw [if_pos h1] at h
    by_cases h2 : (s.drop 12).takeWhile Char.isDigit ≠ [] ∧
        ((s.drop 12).dropWhile Char.isDigit).take 2 = ['#', '#']
    · rw [if_pos h2] at h
      simp only [Option.some.injEq, Prod.mk.injEq] at h
      have hpost : post = ((s.drop 12).dropWhile Char.isDigit).drop 2 := h.2.symm
      have hlen12 : 12 ≤ s.length := by
        have hlen := congrArg List.length h1
        rw [List.length_take] at hlen
        have : (str "##HIGHLIGHT_").length = 12 := by decide
        omega
      have hdw : ((s.drop 12).dropWhile Char.isDigit).length ≤ (s.drop 12).length :=
        (List.dropWhile_sublist _).length_le
      have hd12 : (s.drop 12).length = s.length - 12 := List.length_drop 12 s
      have hp2 : post.length = ((s.drop 12).dropWhile Char.isDigit).length - 2 := by
        rw [hpost, List.length_drop]
      omega
    · rw [if_neg h2] at h
      exact absurd h (by simp)
  · rw [if_neg h1] at h
    exact absurd h (by simp)

theorem parseMarkerAt_cons_ne (c : Char) (t : Str) (hc : c ≠ '#') :
    parseMarkerAt (c :: t) = none := by
  unfold parseMarkerAt
  rw [if_neg]
  intro h
  have hh : (c :: t).take 12 = c :: t.take 11 := rfl
  rw [hh] at h
  have : c = '#' := by
    have := congrArg (fun l => List.headD l ' ') h
    simpa using this
  exact hc this

theorem splitFirstMarker_of_parse (s : Str) (j : Nat) (post : Str)
    (h : parseMarkerAt s = some (j, post)) : splitFirstMarker s = some ([], j, post) := by
  cases s with
  | nil =>
    rw [show parseMarkerAt ([] : Str) = none from rfl] at h
    exact Option.noConfusion h
  | cons c t =>
    simp only [splitFirstMarker, h]

theorem splitFirstMarker_cons_ne (c : Char) (t : Str) (hc : c ≠ '#') :
    splitFirstMarker (c :: t) =
      match splitFirstMarker t with
      | none => none
      | some (pre, j, post) => some (c :: pre, j, post) := by
  simp only [splitFirstMarker, parseMarkerAt_cons_ne c t hc]

theorem noHash_splitFirstMarker (s : Str) (h : noHash s = true) :
    splitFirstMarker s = none := by
  induction s with
  | nil => rfl
  | cons c t ih =>
    rw [splitFirstMarker_cons_ne c t (noHash_head h), ih (noHash_tail h)]

theorem splitFirstMarker_lt : ∀ (s pre : Str) (j : Nat) (post : Str),
    splitFirstMarker s = some (pre, j, post) → post.length < s.length := by
  intro s
  induction s with
  | nil => intro pre j post h; exact Option.noConfusion h
  | cons c t ih =>
    intro pre j post h
    cases hp : parseMarkerAt (c :: t) with
    | some x =>
      obtain ⟨j', post'⟩ := x
      rw [splitFirstMarker_of_parse (c :: t) j' post' hp] at h
      simp only [Option.some.injEq, Prod.mk.injEq] at h
      have := parseMarkerAt_lt (c :: t) j' post' hp
      rw [← h.2.2]
      exact this
    | none =>
      simp only [splitFirstMarker, hp] at h
      cases hs : splitFirstMarker t with
      | none => rw [hs] at h; exact absurd h (by simp)
      | some y =>
        obtain ⟨pre', j', post'⟩ := y
        rw [hs] at h
        simp only [Option.some.injEq, Prod.mk.injEq] at h
        have := ih pre' j' post' hs
        rw [← h.2.2]
        simp only [List.length_cons]
        omega

theorem segmentizeF_irrel (tc : Str) : ∀ f₁ f₂ (s : Str) (cur : Option Nat),
    s.length < f₁ → s.length < f₂ →
    segmentizeF tc f₁ s cur = segmentizeF tc f₂ s cur := by
  intro f₁
  induction f₁ with
  | zero => intro f₂ s cur h1 h2; omega
  | succ f₁ ih =>
    intro f₂ s cur h1 h2
    cases f₂ with
    | zero => omega
    | succ f₂ =>
      cases hsp : splitFirstMarker s with
      | none => simp only [segmentizeF, hsp]
      | some x =>
        obtain ⟨pre, j, post⟩ := x
        have hlt := splitFirstMarker_lt s pre j post hsp
        simp only [segmentizeF, hsp]
        rw [ih f₂ post (some j) (by omega) (by omega)]

theorem segmentize_eq (tc s : Str) (cur : Option Nat) :
    segmentize tc s cur =
      match splitFirstMarker s with
      | none => if s = [] then [] else [⟨s, segColor tc cur, cur.isSome⟩]
      | some (pre, j, post) =>
        (if pre = [] then [] else [⟨pre, segColor tc cur, cur.isSome⟩]) ++
          segmentize tc post (some j) := by
  cases hsp : splitFirstMarker s with
  | none =>
    show segmentizeF tc (s.length + 1) s cur = _
    simp only [segmentizeF, hsp]
  | some x =>
    obtain ⟨pre, j, post⟩ := x
    have hlt := splitFirstMarker_lt s pre j post hsp
    show segmentizeF tc (s.length + 1) s cur = _
    simp only [segmentizeF, hsp]
    rw [segmentizeF_irrel tc s.length (post.length + 1) post (some j) (by omega) (by omega)]
    rfl

theorem segConcat_nil : segConcat [] = [] := rfl

theorem segConcat_cons (sg : Seg) (l : List Seg) :
    segConcat (sg :: l) = sg.text ++ segConcat l := by
  simp [segConcat]

theorem segConcat_append (a b : List Seg) :
    segConcat (a ++ b) = segConcat a ++ segConcat b := by
  simp [segConcat]

theorem segmentize_nil (tc : Str) (cur : Option Nat) : segmentize tc [] cur = [] := rfl

theorem segConcat_segmentize_cons (tc : Str) (c : Char) (out : Str) (cur : Option Nat)
    (hc : c ≠ '#') :
    segConcat (segmentize tc (c :: out) cur) = c :: segConcat (segmentize tc out cur) := by
  cases hsp : splitFirstMarker out with
  | none =>
    have hcp : splitFirstMarker (c :: out) = none := by
      rw [splitFirstMarker_cons_ne c out hc, hsp]
    simp only [segmentize_eq tc (c :: out) cur, segmentize_eq tc out cur, hcp, hsp]
    by_cases hout : out = []
    · subst hout
      simp [segConcat]
    · simp [hout, segConcat]
  | some x =>
    obtain ⟨pre, j, post⟩ := x
    have hcp : splitFirstMarker (c :: out) = some (c :: pre, j, post) := by
      rw [splitFirstMarker_cons_ne c out hc, hsp]
    simp only [segmentize_eq tc (c :: out) cur, segmentize_eq tc out cur, hcp, hsp]
    by_cases hpre : pre = []
    · subst hpre
      simp [segConcat_append, segConcat_cons, segConcat_nil]
    · simp [hpre, segConcat_append, segConcat_cons]

theorem segConcat_segmentize_append (tc : Str) : ∀ (pre : Str), noHash pre = true →
    ∀ (out : Str) (cur : Option Nat),
    segConcat (segmentize tc (pre ++ out) cur) = pre ++ segConcat (segmentize tc out cur) := by
  intro pre
  induction pre with
  | nil => intro _ out cur; simp
  | cons c t ih =>
    intro h out cur
    rw [List.cons_append, segConcat_segmentize_cons tc c (t ++ out) cur (noHash_head h),
        ih (noHash_tail h) out cur]
    rfl

theorem segConcat_segmentize_noHash (tc s : Str) (h : noHash s = true) (cur : Option Nat) :
    segConcat (segmentize tc s cur) = s := by
  have happ := segConcat_segmentize_append tc s h [] cur
  rw [List.append_nil, segmentize_nil, segConcat_nil, List.append_nil] at happ
  exact happ

theorem segmentize_marker (tc : Str) (i : Nat) (tail : Str) (cur : Option Nat) :
    segmentize tc (marker i ++ tail) cur =
      segmentize tc tail (some (natOfDigits (natDigits i))) := by
  rw [segmentize_eq,
      splitFirstMarker_of_parse (marker i ++ tail) _ _ (parseMarkerAt_marker i tail)]
  simp

theorem wrapGoF_irrel (i : Nat) (k : Char) (ks : Str) : ∀ f₁ f₂ (s : Str),
    s.length ≤ f₁ → s.length ≤ f₂ → wrapGoF i k ks f₁ s = wrapGoF i k ks f₂ s := by
  intro f₁
  induction f₁ with
  | zero =>
    intro f₂ s h1 h2
    have hs : s = [] := List.eq_nil_of_length_eq_zero (by omega)
    subst hs
    cases f₂ <;> rfl
  | succ f₁ ih =>
    intro f₂ s h1 h2
    cases s with
    | nil => cases f₂ <;> rfl
    | cons c t =>
      cases f₂ with
      | zero => simp at h2
      | succ f₂ =>
        simp only [wrapGoF]
        by_cases hm : lower ((c :: t).take (k :: ks).length) = lower (k :: ks)
        · rw [if_pos hm, if_pos hm,
              ih f₂ ((c :: t).drop (k :: ks).length)
                (by
                  simp only [List.length_drop, List.length_cons] at h1 ⊢
                  omega)
                (by
                  simp only [List.length_drop, List.length_cons] at h2 ⊢
                  omega)]
        · rw [if_neg hm, if_neg hm,
              ih f₂ t (by simp only [List.length_cons] at h1; omega)
                (by simp only [List.length_cons] at h2; omega)]

theorem wrapKw_nil (i : Nat) (k : Char) (ks : Str) : wrapKw i (k :: ks) [] = [] := rfl

theorem wrapKw_cons (i : Nat) (k : Char) (ks : Str) (c : Char) (t : Str) :
    wrapKw i (k :: ks) (c :: t) =
      if lower ((c :: t).take (k :: ks).length) = lower (k :: ks) then
        marker i ++ (k :: ks) ++ marker i ++ wrapKw i (k :: ks) ((c :: t).drop (k :: ks).length)
      else c :: wrapKw i (k :: ks) t := by
  show wrapGoF i k ks (c :: t).length (c :: t) = _
  simp only [List.length_cons, wrapGoF]
  by_cases hm : lower ((c :: t).take (ks.length + 1)) = lower (k :: ks)
  · rw [if_pos hm, if_pos hm,
        wrapGoF_irrel i k ks t.length ((c :: t).drop (ks.length + 1)).length
          ((c :: t).drop (ks.length + 1))
          (by simp only [List.length_drop, List.length_cons]; omega) le_rfl]
    rfl
  · rw [if_neg hm, if_neg hm]
    rfl

/-- The key lemma for C8: for a `'#'`-free keyword and a `'#'`-free text
whose keyword occurrences are all exact-case, splitting the rewritten
string back into segments and concatenating their texts recovers the
text. -/
theorem segConcat_segmentize_wrapKw (tc : Str) (i : Nat) (k : Char) (ks : Str)
    (hkw : noHash (k :: ks) = true) :
    ∀ (n : Nat) (s : Str), s.length ≤ n → noHash s = true → ExactCase (k :: ks) s →
      ∀ cur, segConcat (segmentize tc (wrapKw i (k :: ks) s) cur) = s := by
  intro n
  induction n with
  | zero =>
    intro s hlen _ _ cur
    have hs : s = [] := List.eq_nil_of_length_eq_zero (by omega)
    subst hs
    rfl
  | succ n ih =>
    intro s hlen hhash hcase cur
    cases s with
    | nil => rfl
    | cons c t =>
      rw [wrapKw_cons]
      by_cases hm : lower ((c :: t).take (k :: ks).length) = lower (k :: ks)
      · rw [if_pos hm]
        have htake : (c :: t).take (k :: ks).length = k :: ks := by
          have h0 := hcase 0
          rw [List.drop_zero] at h0
          exact h0 hm
        rw [List.append_assoc, List.append_assoc, segmentize_marker,
            segConcat_segmentize_append tc (k :: ks) hkw, segmentize_marker,
            ih ((c :: t).drop (k :: ks).length)
              (by simp only [List.length_drop, List.length_cons] at *; omega)
              (noHash_drop hhash _)
              (by
                have := exactCase_drop hcase (k :: ks).length
                exact this)
              (some (natOfDigits (natDigits i)))]
        conv_rhs => rw [← List.take_append_drop (k :: ks).length (c :: t)]
        rw [htake]
      · rw [if_neg hm]
        have hc := noHash_head hhash
        rw [segConcat_segmentize_cons tc c _ cur hc,
            ih t (by simp only [List.length_cons] at hlen; omega) (noHash_tail hhash)
              (by
                have := exactCase_drop hcase 1
                rw [List.drop_one] at this
                exact this) cur]

/-- C8 (amended): for a single keyword, when neither the keyword nor the
text contains the sentinel character `'#'` and every case-insensitive
occurrence of the keyword in the text is spelled exactly as the keyword
(so the match-respelling is the identity), the concatenation of the text
fields of the segments returned by the keyword highlighter, in order,
equals the input text. -/
theorem c8_concat_preserved (kw text textColor : Str) (hkw : noHash kw = true)
    (htext : noHash text = true) (hcase : exactCaseOK kw text = true) :
    segConcat (processTextWithKeywords [kw] textColor text) = text := by
  unfold processTextWithKeywords
  rw [if_neg (by simp)]
  have henum : ([kw] : List Str).enum.foldl (fun acc p => applyKeyword p.1 p.2 acc) text =
      applyKeyword 0 kw text := rfl
  simp only [henum]
  by_cases htr : trim kw = []
  · rw [applyKeyword, if_pos htr]
    by_cases hseg : segmentize textColor text none = []
    · rw [if_pos hseg]
      simp [segConcat]
    · rw [if_neg hseg]
      exact segConcat_segmentize_noHash textColor text htext none
  · rw [applyKeyword, if_neg htr]
    cases hk : kw with
    | nil => exact absurd (show trim kw = [] by rw [hk]; rfl) htr
    | cons k ks =>
      subst hk
      by_cases hseg : segmentize textColor (wrapKw 0 (k :: ks) text) none = []
      · rw [if_pos hseg]
        simp [segConcat]
      · rw [if_neg hseg]
        exact segConcat_segmentize_wrapKw textColor 0 k ks hkw text.length text le_rfl
          htext (exactCaseOK_spec _ _ hcase) none

/-- Concrete instantiation of `c8_concat_preserved`: keyword `"love"` on
`"I love you"` (exact-case occurrence, no `'#'`) — the concatenation of
the segment texts is the input. -/
theorem c8_concat_preserved_witness :
    noHash (str "love") = true ∧ noHash (str "I love you") = true ∧
    exactCaseOK (str "love") (str "I love you") = true ∧
    segConcat (processTextWithKeywords [str "love"] (str "#000000") (str "I love you")) =
      str "I love you" := by
  refine ⟨by decide, by decide, by decide, ?_⟩
  exact c8_concat_preserved (str "love") (str "I love you") (str "#000000")
    (by decide) (by decide) (by decide)
